import Mathlib

/-!
Verification development for the prisma CLI / database-introspection repository.

Part A embeds the schema-introspection pipeline (Connector rows → model →
relation classification → SDL emission).  The introspector implementation
itself (`Introspector.ts`, `PostgresConnector.ts`) is not part of the source
tree here — only its test file `relations.test.ts` is — so the pipeline is
modelled from the specification (spec.md §§3–4, 7–8), faithful to its words.

Part B embeds, directly from the source of `PrismaDefinition.ts`
(src/unnamed/part_000): `concatName`, `PrismaDefinitionClass.getToken` and
`PrismaDefinitionClass.getHooks`.  JavaScript truthiness of the values those
functions branch on is modelled explicitly.
-/

/-! ### String utilities (kernel-reducible orderings and casing) -/

/-- Byte-order comparison of character lists, used as the deterministic
ordering the builder normalizes discovery order with. -/
def charListLe : List Char → List Char → Bool
  | [], _ => true
  | _ :: _, [] => false
  | a :: as, b :: bs =>
    if a.toNat < b.toNat then true
    else if b.toNat < a.toNat then false
    else charListLe as bs

/-- Deterministic total order on strings (by code points). -/
def strLe (a b : String) : Bool := charListLe a.toList b.toList

theorem charListLe_total (a b : List Char) : charListLe a b = true ∨ charListLe b a = true := by
  induction a generalizing b with
  | nil => left; rfl
  | cons x xs ih =>
    cases b with
    | nil => right; rfl
    | cons y ys =>
      by_cases hxy : x.toNat < y.toNat
      · left; simp [charListLe, hxy]
      · by_cases hyx : y.toNat < x.toNat
        · right; simp [charListLe, hyx]
        · rcases ih ys with h | h
          · left; simpa [charListLe, hxy, hyx] using h
          · right; simpa [charListLe, hxy, hyx] using h

theorem charListLe_trans {a b c : List Char} (hab : charListLe a b = true)
    (hbc : charListLe b c = true) : charListLe a c = true := by
  induction a generalizing b c with
  | nil => rfl
  | cons x xs ih =>
    cases b with
    | nil => simp [charListLe] at hab
    | cons y ys =>
      cases c with
      | nil => simp [charListLe] at hbc
      | cons z zs =>
        simp only [charListLe] at hab hbc ⊢
        by_cases hxy : x.toNat < y.toNat
        · by_cases hyz : y.toNat < z.toNat
          · simp [Nat.lt_trans hxy hyz]
          · by_cases hzy : z.toNat < y.toNat
            · simp [charListLe, hyz, hzy] at hbc
            · have : y.toNat = z.toNat := Nat.le_antisymm (Nat.le_of_not_lt hzy) (Nat.le_of_not_lt hyz)
              simp [this ▸ hxy]
        · by_cases hyx : y.toNat < x.toNat
          · simp [hxy, hyx] at hab
          · have hxeq : x.toNat = y.toNat := Nat.le_antisymm (Nat.le_of_not_lt hyx) (Nat.le_of_not_lt hxy)
            by_cases hyz : y.toNat < z.toNat
            · simp [hxeq ▸ hyz]
            · by_cases hzy : z.toNat < y.toNat
              · simp [hyz, hzy] at hbc
              · have hyeq : y.toNat = z.toNat := Nat.le_antisymm (Nat.le_of_not_lt hzy) (Nat.le_of_not_lt hyz)
                have hxz : ¬ x.toNat < z.toNat := by omega
                have hzx : ¬ z.toNat < x.toNat := by omega
                simp only [hxz, hzx, if_false, if_true, ite_self]
                simp only [hxy, hyx, if_false] at hab
                simp only [hyz, hzy, if_false] at hbc
                exact ih hab hbc

theorem charListLe_antisymm {a b : List Char} (hab : charListLe a b = true)
    (hba : charListLe b a = true) : a = b := by
  induction a generalizing b with
  | nil =>
    cases b with
    | nil => rfl
    | cons y ys => simp [charListLe] at hba
  | cons x xs ih =>
    cases b with
    | nil => simp [charListLe] at hab
    | cons y ys =>
      simp only [charListLe] at hab hba
      by_cases hxy : x.toNat < y.toNat
      · have : ¬ y.toNat < x.toNat := by omega
        simp [hxy, this] at hba
      · by_cases hyx : y.toNat < x.toNat
        · simp [hxy, hyx] at hab
        · have hxeq : x.toNat = y.toNat := Nat.le_antisymm (Nat.le_of_not_lt hyx) (Nat.le_of_not_lt hxy)
          have hchar : x = y := by
            apply Char.ext
            have h1 : x.val.toNat = y.val.toNat := hxeq
            exact UInt32.toNat.inj h1
          simp only [hxy, hyx, if_false] at hab hba
          rw [hchar, ih hab hba]

theorem strLe_total (a b : String) : strLe a b = true ∨ strLe b a = true :=
  charListLe_total a.toList b.toList

theorem strLe_trans {a b c : String} (hab : strLe a b = true) (hbc : strLe b c = true) :
    strLe a c = true := charListLe_trans hab hbc

theorem strLe_antisymm {a b : String} (hab : strLe a b = true) (hba : strLe b a = true) :
    a = b := String.ext (charListLe_antisymm hab hba)

/-- Uppercase the first character of a word. -/
def ucFirst : List Char → List Char
  | [] => []
  | c :: cs => c.toUpper :: cs

/-- Split a character list at a separator character (the list of groups is
never empty, like JavaScript's `String.split`). -/
def splitOnChar (sep : Char) : List Char → List (List Char)
  | [] => [[]]
  | c :: rest =>
    let r := splitOnChar sep rest
    if c = sep then [] :: r
    else
      match r with
      | [] => [[c]]
      | g :: gs => (c :: g) :: gs

/-- Modelled from the spec: generated SDL type names are "derived
deterministically from table/column names" with "consistent casing" (§3, §4.3);
the §8 scenarios show snake_case table names becoming PascalCase type names
(`bill_product` → `BillProduct`). -/
def typeNameOf (s : String) : String :=
  ⟨(splitOnChar '_' s.toList).flatMap ucFirst⟩

/-- Modelled from the spec: pluralized field names for list-typed relation
ends ("consistent casing/pluralization rules", §4.3). -/
def pluralize (s : String) : String := s ++ "s"

/-- Drop a trailing `_id` from a column name, if present. -/
def stripIdSuffix (cs : List Char) : List Char :=
  match cs.reverse with
  | 'd' :: 'i' :: '_' :: rest => rest.reverse
  | _ => cs

/-! ### Part A: the introspection data model (spec.md §3) -/

/-- Modelled from the spec: a column of an introspected table — name, scalar
type, nullability flag and optional default (§3).  The missing source is the
Schema Model Builder of `prisma-db-introspection`. -/
structure Column where
  name : String
  type : String
  nullable : Bool
  hasDefault : Bool
deriving DecidableEq, Repr

/-- Modelled from the spec: a foreign-key edge — source column, target table
and target column (§3).  The missing source is the Schema Model Builder of
`prisma-db-introspection`. -/
structure ForeignKey where
  sourceColumn : String
  targetTable : String
  targetColumn : String
deriving DecidableEq, Repr

/-- Modelled from the spec: a table — name, ordered columns, primary-key
column set and owned foreign keys (§3).  The missing source is the Schema
Model Builder of `prisma-db-introspection`. -/
structure Table where
  name : String
  columns : List Column
  primaryKey : List String
  foreignKeys : List ForeignKey
deriving DecidableEq, Repr

def Table.fkColumnNames (t : Table) : List String :=
  t.foreignKeys.map (·.sourceColumn)

/-- A required column: NOT NULL and without a default (spec §4.3). -/
def Column.isRequired (c : Column) : Bool := !c.nullable && !c.hasDefault

/-- Modelled from the spec: junction classification — a table "with exactly
two foreign keys and no other required (NOT NULL, non-default) columns
besides those two FK columns and an optional auto-generated identity column"
is a junction table (§4.3).  The missing source is the Relation Classifier of
`prisma-db-introspection`. -/
def Table.isJunction (t : Table) : Prop :=
  t.foreignKeys.length = 2 ∧
  ∀ c ∈ t.columns,
    c.name ∈ t.fkColumnNames ∨ c.name ∈ t.primaryKey ∨
    c.nullable = true ∨ c.hasDefault = true

instance (t : Table) : Decidable t.isJunction := by
  unfold Table.isJunction; infer_instance

/-- Nullability of the column backing a foreign key. -/
def Table.fkColumnNullable (t : Table) (fk : ForeignKey) : Bool :=
  match t.columns.find? (fun c => c.name == fk.sourceColumn) with
  | some c => c.nullable
  | none => true

/-! ### Part A: classification and emission (spec.md §§4.3–4.4) -/

/-- A field of an emitted SDL type. -/
structure EmittedField where
  name : String
  typeName : String
  isList : Bool
  isRequired : Bool
deriving DecidableEq, Repr

/-- An emitted SDL type. -/
structure EmittedType where
  name : String
  fields : List EmittedField
deriving DecidableEq, Repr

/-- Modelled from the spec: the inline relation field name is "derived purely
from table and column identifiers" (§4.3); the §8 scenarios show column
`product_id` becoming field `product`. -/
def inlineFieldName (fk : ForeignKey) : String :=
  ⟨stripIdSuffix fk.sourceColumn.toList⟩

/-- Modelled from the spec: the back-reference list field is named by
pluralizing the owning table's name; on a self-reference, a "disambiguating
suffix derived from the column name" prevents the two ends from sharing a
name (§4.3). -/
def backRefFieldName (owner : Table) (fk : ForeignKey) : String :=
  let base := pluralize owner.name
  if fk.targetTable = owner.name ∧ base = inlineFieldName fk then
    base ++ "_" ++ fk.sourceColumn
  else base

/-- Scalar fields of an emitted type: the table's non-foreign-key columns in
column order (spec §4.4). -/
def scalarFields (t : Table) : List EmittedField :=
  (t.columns.filter (fun c => !(t.fkColumnNames.contains c.name))).map
    (fun c => { name := c.name, typeName := c.type, isList := false,
                isRequired := c.isRequired })

/-- The inline relation field a foreign key contributes to its owning type:
named from the column, typed at the target table, never a list, required
exactly when the backing column is NOT NULL (spec §4.3). -/
def inlineFieldOf (t : Table) (fk : ForeignKey) : EmittedField :=
  { name := inlineFieldName fk, typeName := typeNameOf fk.targetTable,
    isList := false, isRequired := !(t.fkColumnNullable fk) }

/-- The back-reference list field an inline relation contributes to its
target type (spec §4.3). -/
def backRefFieldOf (owner : Table) (fk : ForeignKey) : EmittedField :=
  { name := backRefFieldName owner fk, typeName := typeNameOf owner.name,
    isList := true, isRequired := true }

/-- The list field an elided junction table contributes to one referenced
table, pointing at the other referenced table (spec §4.3). -/
def junctionFieldTo (target : String) : EmittedField :=
  { name := pluralize target, typeName := typeNameOf target,
    isList := true, isRequired := true }

/-- Modelled from the spec: inline relation fields on the owning type — one
per owned foreign key, "nullable if the FK column is nullable, list never"
(§4.3).  The missing source is the Relation Classifier. -/
def inlineFields (t : Table) : List EmittedField :=
  t.foreignKeys.map (inlineFieldOf t)

/-- Modelled from the spec: back-reference list fields on the target type of
every inline relation (§4.3).  The missing source is the Relation
Classifier. -/
def backRefFields (ts : List Table) (t : Table) : List EmittedField :=
  ts.flatMap (fun o =>
    if o.isJunction then [] else
    o.foreignKeys.filterMap (fun fk =>
      if fk.targetTable = t.name then some (backRefFieldOf o fk) else none))

/-- Modelled from the spec: for each elided junction table, "on each of the
two referenced tables, a list-typed relation field pointing at the other
referenced table" (§4.3).  The missing source is the Relation Classifier. -/
def junctionFields (ts : List Table) (t : Table) : List EmittedField :=
  ts.flatMap (fun j =>
    if j.isJunction then
      match j.foreignKeys with
      | [f1, f2] =>
        (if f1.targetTable = t.name then [junctionFieldTo f2.targetTable] else [])
        ++
        (if f2.targetTable = t.name then [junctionFieldTo f1.targetTable] else [])
      | _ => []
    else [])

/-- Modelled from the spec: one emitted type per non-elided table — scalar
columns in column order, then relation fields (§4.4). -/
def emitType (ts : List Table) (t : Table) : EmittedType :=
  { name := typeNameOf t.name,
    fields := scalarFields t ++ inlineFields t ++ backRefFields ts t ++ junctionFields ts t }

/-- Modelled from the spec: junction tables are elided; every other table
becomes one SDL type (§3, §4.4). -/
def emitTypes (ts : List Table) : List EmittedType :=
  (ts.filter (fun t => decide (¬ t.isJunction))).map (emitType ts)

/-! ### Part A: builder normalization and the introspect entry point -/

/-- Modelled from the spec: the builder normalizes database-internal
discovery order — results "must be stable across repeated introspection"
and independent of foreign-key discovery order (§3, §4.3) — by ordering each
table's foreign keys by source column. -/
def canonTable (t : Table) : Table :=
  { t with foreignKeys :=
      List.insertionSort (fun a b => strLe a.sourceColumn b.sourceColumn = true) t.foreignKeys }

/-- Modelled from the spec: the normalized model — tables in name order,
foreign keys in source-column order (§3, §4.4 determinism). -/
def normalizeSchema (ts : List Table) : List Table :=
  List.insertionSort (fun a b => strLe a.name b.name = true) (ts.map canonTable)

/-- Render one emitted field as SDL text. -/
def renderField (f : EmittedField) : String :=
  "  " ++ f.name ++ ": " ++
    (if f.isList then "[" ++ f.typeName ++ "!]!"
     else f.typeName ++ (if f.isRequired then "!" else "")) ++ "\n"

/-- Render one emitted type as an SDL type block. -/
def renderType (et : EmittedType) : String :=
  "type " ++ et.name ++ " \x7b\n" ++ String.join (et.fields.map renderField) ++ "\x7d\n"

/-- Render the whole SDL document. -/
def renderSDL (ets : List EmittedType) : String :=
  String.join (ets.map renderType)

/-- The introspect result: the table count and the SDL string, mirroring the
`{ numTables, sdl }` pair of `Introspector.introspect`. -/
structure IntrospectionResult where
  numTables : Nat
  sdl : String
deriving DecidableEq, Repr

/-- Modelled from the spec: the introspect entry point — zero discovered
tables is "an explicit empty-result condition, not silently returning blank
SDL" (§7); on success the output is "a single SDL text string plus a count of
discovered tables" (§6).  The missing source is `Introspector.introspect` of
`prisma-db-introspection`. -/
def introspect (ts : List Table) : Except String IntrospectionResult :=
  if ts.isEmpty then .error "no tables found in the target schema"
  else .ok { numTables := ts.length, sdl := renderSDL (emitTypes (normalizeSchema ts)) }

/-! ### Part B: definitions embedded from src/unnamed/part_000 -/

/-- The part of a `Cluster` that `concatName` consults. -/
structure Cluster where
  shared : Bool
deriving DecidableEq, Repr

/-- JavaScript truthiness of a `string | null` value: null and the empty
string are falsy. -/
def strOrNullTruthy : Option String → Bool
  | none => false
  | some s => !s.isEmpty

/-- Embeds `concatName` (part_000, lines 420–431): for a shared cluster the
name is prefixed with `` `${workspace}~` `` when `workspace` is truthy,
otherwise the bare name is returned. -/
def concatName (cluster : Cluster) (name : String) (workspace : Option String) : String :=
  if cluster.shared then
    (if strOrNullTruthy workspace then workspace.getD "" ++ "~" else "") ++ name
  else name

/-- The arguments `getToken` passes to `jwt.sign`: the payload fields, the
secret (JavaScript indexing `secrets[0]` may yield `undefined`, hence
`Option`), and the `expiresIn` option. -/
structure SignCall where
  service : String
  roles : List String
  secret : Option String
  expiresIn : String
deriving DecidableEq, Repr

/-- Embeds `PrismaDefinitionClass.getToken` (part_000, lines 230–244):
`undefined` when `this.secrets` is null, otherwise a `jwt.sign` call with
`` `${serviceName}@${stageName}` ``, roles `['admin']`, secret `secrets[0]`
and a 7-day expiry.  (A JavaScript array is always truthy, so any non-null
`secrets` takes the signing branch.) -/
def getToken (secrets : Option (List String)) (serviceName stageName : String) :
    Option SignCall :=
  match secrets with
  | some ss =>
      some { service := serviceName ++ "@" ++ stageName, roles := ["admin"],
             secret := ss.head?, expiresIn := "7d" }
  | none => none

/-- Embeds the secret loading of `loadDefinition` (part_000, line 107):
`secrets ? secrets.replace(/\s/g, '').split(',') : null` — null when the
`secret` field is absent or falsy (empty string), otherwise the
whitespace-stripped string split on commas. -/
def parseSecrets (secretField : Option String) : Option (List String) :=
  match secretField with
  | none => none
  | some s => if s.isEmpty then none
      else some ((splitOnChar ',' (s.toList.filter (fun c => !c.isWhitespace))).map
        (fun cs => (⟨cs⟩ : String)))

/-- A runtime value a `hooks` entry can hold (`any` in the source): a string,
an array of strings, or any other JavaScript value, represented by its
truthiness — `getHooks` inspects a non-string non-array value only through
truthiness, `typeof` and `Array.isArray`. -/
inductive HookValue where
  | str (s : String)
  | arr (xs : List String)
  | other (truthy : Bool)
deriving DecidableEq, Repr

/-- JavaScript truthiness of a hook value: the empty string is falsy, any
array is truthy. -/
def HookValue.truthy : HookValue → Bool
  | .str s => !s.isEmpty
  | .arr _ => true
  | .other b => b

/-- Embeds `PrismaDefinitionClass.getHooks` (part_000, lines 401–417): if the
definition, its `hooks` object and the entry for the hook type are all
truthy, a string entry yields a one-element array, an array entry is returned
as-is, and anything else throws; otherwise the empty array is returned.
`hooks` is `none` when the definition or its `hooks` object is absent; the
entry is `none` when the key is missing. -/
def getHooks (hooks : Option (String → Option HookValue)) (hookType : String) :
    Except String (List String) :=
  match hooks with
  | none => .ok []
  | some f =>
    match f hookType with
    | none => .ok []
    | some v =>
      if v.truthy then
        match v with
        | .str s => .ok [s]
        | .arr xs => .ok xs
        | .other _ =>
            .error ("Hook " ++ hookType ++
              " provided in prisma.yml must be string or an array of strings.")
      else .ok []

/-! ### Helper lemmas: deterministic sorting by a string key -/

theorem pairwise_insertionSort_key {α : Type} (key : α → String) (l : List α) :
    List.Pairwise (fun a b => strLe (key a) (key b) = true)
      (List.insertionSort (fun a b => strLe (key a) (key b) = true) l) := by
  haveI : IsTotal α (fun a b => strLe (key a) (key b) = true) := ⟨fun a b => strLe_total _ _⟩
  haveI : IsTrans α (fun a b => strLe (key a) (key b) = true) := ⟨fun _ _ _ => strLe_trans⟩
  exact List.sorted_insertionSort _ l

theorem eq_of_perm_of_sorted_key {α : Type} (key : α → String) {l1 l2 : List α}
    (hp : l1.Perm l2)
    (hs1 : List.Pairwise (fun a b => strLe (key a) (key b) = true) l1)
    (hs2 : List.Pairwise (fun a b => strLe (key a) (key b) = true) l2)
    (hn : (l1.map key).Nodup) : l1 = l2 := by
  have hne1 : List.Pairwise (fun a b => key a ≠ key b) l1 := List.pairwise_map.mp hn
  have hn2 : (l2.map key).Nodup := (hp.map key).nodup_iff.mp hn
  have hne2 : List.Pairwise (fun a b => key a ≠ key b) l2 := List.pairwise_map.mp hn2
  haveI : IsAntisymm α (fun a b => strLe (key a) (key b) = true ∧ key a ≠ key b) :=
    ⟨fun _ _ hab hba => absurd (strLe_antisymm hab.1 hba.1) hab.2⟩
  exact List.eq_of_perm_of_sorted (r := fun a b => strLe (key a) (key b) = true ∧ key a ≠ key b)
    hp (hs1.and hne1) (hs2.and hne2)

theorem insertionSort_key_eq_of_perm {α : Type} (key : α → String) {l1 l2 : List α}
    (hp : l1.Perm l2) (hn : (l1.map key).Nodup) :
    List.insertionSort (fun a b => strLe (key a) (key b) = true) l1 =
    List.insertionSort (fun a b => strLe (key a) (key b) = true) l2 := by
  apply eq_of_perm_of_sorted_key key
  · exact (List.perm_insertionSort _ l1).trans (hp.trans (List.perm_insertionSort _ l2).symm)
  · exact pairwise_insertionSort_key key l1
  · exact pairwise_insertionSort_key key l2
  · exact ((List.perm_insertionSort _ l1).map key).nodup_iff.mpr hn

/-! ### Helper lemmas: the canonicalized model -/

theorem canonTable_name (t : Table) : (canonTable t).name = t.name := rfl

theorem canonTable_columns (t : Table) : (canonTable t).columns = t.columns := rfl

theorem canonTable_primaryKey (t : Table) : (canonTable t).primaryKey = t.primaryKey := rfl

theorem canonTable_fk_perm (t : Table) : (canonTable t).foreignKeys.Perm t.foreignKeys :=
  List.perm_insertionSort _ _

theorem canonTable_fkColumnNames_perm (t : Table) :
    (canonTable t).fkColumnNames.Perm t.fkColumnNames :=
  (canonTable_fk_perm t).map _

theorem isJunction_canonTable (t : Table) : (canonTable t).isJunction ↔ t.isJunction := by
  unfold Table.isJunction
  rw [canonTable_columns, canonTable_primaryKey, (canonTable_fk_perm t).length_eq]
  constructor <;> rintro ⟨hl, hc⟩ <;> refine ⟨hl, fun c hmem => ?_⟩
  · rcases hc c hmem with h | h
    · exact Or.inl ((canonTable_fkColumnNames_perm t).mem_iff.mp h)
    · exact Or.inr h
  · rcases hc c hmem with h | h
    · exact Or.inl ((canonTable_fkColumnNames_perm t).mem_iff.mpr h)
    · exact Or.inr h

theorem fkColumnNullable_canonTable (t : Table) (fk : ForeignKey) :
    (canonTable t).fkColumnNullable fk = t.fkColumnNullable fk := rfl

theorem mem_normalizeSchema {ts : List Table} {t : Table} (h : t ∈ ts) :
    canonTable t ∈ normalizeSchema ts :=
  (List.perm_insertionSort _ _).mem_iff.mpr (List.mem_map_of_mem canonTable h)

theorem normalizeSchema_mem_inv {ts : List Table} {u : Table} (h : u ∈ normalizeSchema ts) :
    ∃ t ∈ ts, u = canonTable t := by
  have hm : u ∈ ts.map canonTable := (List.perm_insertionSort _ _).mem_iff.mp h
  rcases List.mem_map.mp hm with ⟨t, ht, heq⟩
  exact ⟨t, ht, heq.symm⟩

theorem mem_emitTypes {ts : List Table} {u : Table} (hu : u ∈ ts) (hj : ¬ u.isJunction) :
    emitType (normalizeSchema ts) (canonTable u) ∈ emitTypes (normalizeSchema ts) := by
  apply List.mem_map_of_mem
  apply List.mem_filter.mpr
  refine ⟨mem_normalizeSchema hu, ?_⟩
  simpa [isJunction_canonTable] using hj

theorem emitType_name (ns : List Table) (u : Table) :
    (emitType ns (canonTable u)).name = typeNameOf u.name := rfl

theorem emitTypes_mem_inv {ts : List Table} {et : EmittedType}
    (h : et ∈ emitTypes (normalizeSchema ts)) :
    ∃ u ∈ ts, ¬ u.isJunction ∧ et = emitType (normalizeSchema ts) (canonTable u) := by
  rcases List.mem_map.mp h with ⟨u', hu', heq⟩
  rcases List.mem_filter.mp hu' with ⟨hmem, hdec⟩
  rcases normalizeSchema_mem_inv hmem with ⟨u, hu, hcanon⟩
  refine ⟨u, hu, ?_, ?_⟩
  · have : ¬ u'.isJunction := by simpa using hdec
    rw [hcanon] at this
    exact fun hj => this ((isJunction_canonTable u).mpr hj)
  · rw [← heq, hcanon]

/-! ### Helper lemmas: membership of relation fields in emitted types -/

theorem inlineField_mem {t : Table} {fk : ForeignKey} (h : fk ∈ t.foreignKeys) :
    inlineFieldOf t fk ∈ inlineFields (canonTable t) := by
  have hmem : fk ∈ (canonTable t).foreignKeys := (canonTable_fk_perm t).mem_iff.mpr h
  have : inlineFieldOf (canonTable t) fk = inlineFieldOf t fk := rfl
  exact this ▸ List.mem_map_of_mem _ hmem

theorem backRefField_mem {ts : List Table} {o u : Table} {fk : ForeignKey}
    (ho : o ∈ ts) (hoj : ¬ o.isJunction) (hfk : fk ∈ o.foreignKeys)
    (htgt : fk.targetTable = u.name) :
    backRefFieldOf o fk ∈ backRefFields (normalizeSchema ts) (canonTable u) := by
  apply List.mem_flatMap.mpr
  refine ⟨canonTable o, mem_normalizeSchema ho, ?_⟩
  have hnj : ¬ (canonTable o).isJunction := fun hj => hoj ((isJunction_canonTable o).mp hj)
  rw [if_neg hnj]
  apply List.mem_filterMap.mpr
  refine ⟨fk, (canonTable_fk_perm o).mem_iff.mpr hfk, ?_⟩
  have hcond : fk.targetTable = (canonTable u).name := htgt
  rw [if_pos hcond]
  rfl

theorem fks_pair_of_perm {l : List ForeignKey} {f1 f2 : ForeignKey}
    (h : l.Perm [f1, f2]) : l = [f1, f2] ∨ l = [f2, f1] := by
  have hlen : l.length = 2 := h.length_eq
  cases l with
  | nil => simp at hlen
  | cons x l' =>
    cases l' with
    | nil => simp at hlen
    | cons y l'' =>
      cases l'' with
      | cons z l''' => simp at hlen
      | nil =>
        have hx : x ∈ [f1, f2] := h.mem_iff.mp (by simp)
        rcases List.mem_pair.mp hx with hx1 | hx2
        · have hy : [y].Perm [f2] := (hx1 ▸ h).cons_inv
          left
          rw [hx1, List.perm_singleton.mp hy]
        · have hswap : ([f1, f2] : List ForeignKey).Perm [f2, f1] := List.Perm.swap _ _ _
          have hy : [y].Perm [f1] := ((hx2 ▸ h).trans hswap).cons_inv
          right
          rw [hx2, List.perm_singleton.mp hy]

theorem junctionField_mem {ts : List Table} {j u : Table} {f1 f2 : ForeignKey}
    (hj : j ∈ ts) (hjunc : j.isJunction)
    (hfks : j.foreignKeys = [f1, f2] ∨ j.foreignKeys = [f2, f1])
    (htgt : f1.targetTable = u.name) :
    junctionFieldTo f2.targetTable ∈ junctionFields (normalizeSchema ts) (canonTable u) := by
  apply List.mem_flatMap.mpr
  refine ⟨canonTable j, mem_normalizeSchema hj, ?_⟩
  have hjc : (canonTable j).isJunction := (isJunction_canonTable j).mpr hjunc
  rw [if_pos hjc]
  have hperm : (canonTable j).foreignKeys.Perm [f1, f2] := by
    rcases hfks with h | h
    · exact h ▸ canonTable_fk_perm j
    · exact (h ▸ canonTable_fk_perm j).trans (List.Perm.swap _ _ _)
  have hcond : f1.targetTable = (canonTable u).name := htgt
  rcases fks_pair_of_perm hperm with hc | hc
  · rw [hc]
    apply List.mem_append_left
    rw [if_pos hcond]
    exact List.mem_singleton.mpr rfl
  · rw [hc]
    apply List.mem_append_right
    rw [if_pos hcond]
    exact List.mem_singleton.mpr rfl

theorem junction_not_emitted {ts : List Table} {t : Table} (ht : t ∈ ts)
    (hjunc : t.isJunction)
    (hnodup : (ts.map (fun u => typeNameOf u.name)).Nodup) :
    ∀ et ∈ emitTypes (normalizeSchema ts), et.name ≠ typeNameOf t.name := by
  intro et hmem heq
  rcases emitTypes_mem_inv hmem with ⟨u, hu, huj, hetu⟩
  have hname : typeNameOf u.name = typeNameOf t.name := by
    rw [hetu] at heq
    exact heq
  have : u = t := List.inj_on_of_nodup_map hnodup hu ht hname
  exact huj (this ▸ hjunc)

/-! ### Helper lemmas: schema equality up to discovery order (C2) -/

/-- Two table records describing the same table, with foreign keys possibly
discovered in a different order. -/
def TableEquivUpToFkOrder (t1 t2 : Table) : Prop :=
  t1.name = t2.name ∧ t1.columns = t2.columns ∧ t1.primaryKey = t2.primaryKey ∧
  t1.foreignKeys.Perm t2.foreignKeys

/-- Two schemas describing the same database, with tables and per-table
foreign keys possibly discovered in different orders. -/
def SchemaEquivUpToOrder (ts1 ts2 : List Table) : Prop :=
  ∃ ts', ts1.Perm ts' ∧ List.Forall₂ TableEquivUpToFkOrder ts' ts2

theorem canonTable_eq_of_equiv {t1 t2 : Table} (h : TableEquivUpToFkOrder t1 t2)
    (hnd : (t1.foreignKeys.map ForeignKey.sourceColumn).Nodup) :
    canonTable t1 = canonTable t2 := by
  obtain ⟨hn, hc, hp, hfk⟩ := h
  have hfkeq := insertionSort_key_eq_of_perm (fun fk : ForeignKey => fk.sourceColumn) hfk hnd
  cases t1
  cases t2
  simp only [canonTable, Table.mk.injEq] at *
  exact ⟨hn, hc, hp, hfkeq⟩

theorem map_canon_eq_of_forall2 {ts' ts2 : List Table}
    (h : List.Forall₂ TableEquivUpToFkOrder ts' ts2)
    (hnd : ∀ t ∈ ts', (t.foreignKeys.map ForeignKey.sourceColumn).Nodup) :
    ts'.map canonTable = ts2.map canonTable := by
  induction h with
  | nil => rfl
  | cons h1 h2 ih =>
    simp only [List.map_cons]
    rw [canonTable_eq_of_equiv h1 (hnd _ (by simp)),
      ih (fun t ht => hnd t (by simp [ht]))]

theorem normalizeSchema_eq_of_equiv {ts1 ts2 : List Table}
    (heq : SchemaEquivUpToOrder ts1 ts2)
    (hnames : (ts1.map Table.name).Nodup)
    (hfkdup : ∀ t ∈ ts1, (t.foreignKeys.map ForeignKey.sourceColumn).Nodup) :
    normalizeSchema ts1 = normalizeSchema ts2 := by
  obtain ⟨ts', hperm, hf2⟩ := heq
  have hnd' : ∀ t ∈ ts', (t.foreignKeys.map ForeignKey.sourceColumn).Nodup :=
    fun t ht => hfkdup t (hperm.mem_iff.mpr ht)
  have hmapeq : ts'.map canonTable = ts2.map canonTable := map_canon_eq_of_forall2 hf2 hnd'
  have hpermc : (ts1.map canonTable).Perm (ts2.map canonTable) :=
    hmapeq ▸ hperm.map canonTable
  have hnodup : ((ts1.map canonTable).map Table.name).Nodup := by
    have : (ts1.map canonTable).map Table.name = ts1.map Table.name := by
      rw [List.map_map]
      exact List.map_congr_left (fun t _ => canonTable_name t)
    rw [this]
    exact hnames
  exact insertionSort_key_eq_of_perm Table.name hpermc hnodup

/-! ### Helper lemmas: naming -/

theorem backRefFieldName_ne_inline {t : Table} {fk : ForeignKey}
    (hself : fk.targetTable = t.name) :
    backRefFieldName t fk ≠ inlineFieldName fk := by
  unfold backRefFieldName
  by_cases hcase : fk.targetTable = t.name ∧ pluralize t.name = inlineFieldName fk
  · rw [if_pos hcase]
    intro heq
    have hlen : (pluralize t.name ++ "_" ++ fk.sourceColumn).length =
        (inlineFieldName fk).length := congrArg String.length heq
    rw [String.length_append, String.length_append, ← hcase.2] at hlen
    have h1 : ("_" : String).length = 1 := rfl
    omega
  · rw [if_neg hcase]
    intro heq
    exact hcase ⟨hself, heq⟩

theorem not_isJunction_of_required_extra {t : Table} {c : Column}
    (hc : c ∈ t.columns) (hreq : c.isRequired = true)
    (hnotfk : c.name ∉ t.fkColumnNames) (hnotpk : c.name ∉ t.primaryKey) :
    ¬ t.isJunction := by
  rintro ⟨-, hall⟩
  rcases hall c hc with h | h | h | h
  · exact hnotfk h
  · exact hnotpk h
  · simp [Column.isRequired, h] at hreq
  · simp [Column.isRequired, h] at hreq

theorem splitOnChar_ne_nil (sep : Char) (cs : List Char) : splitOnChar sep cs ≠ [] := by
  cases cs with
  | nil => simp [splitOnChar]
  | cons c rest =>
    simp only [splitOnChar]
    by_cases h : c = sep
    · simp [h]
    · simp only [h, if_false]
      cases splitOnChar sep rest with
      | nil => simp
      | cons g gs => simp

theorem parseSecrets_ne_nil {sf : Option String} {l : List String}
    (h : parseSecrets sf = some l) : l ≠ [] := by
  cases sf with
  | none => simp [parseSecrets] at h
  | some s =>
    simp only [parseSecrets] at h
    by_cases he : s.isEmpty
    · simp [he] at h
    · rw [if_neg he] at h
      have := Option.some.inj h
      intro hnil
      rw [hnil] at this
      exact splitOnChar_ne_nil ',' _ (List.map_eq_nil_iff.mp this)

/-! ### Concrete fixtures (the §8 scenarios of the spec and the SQL of
`relations.test.ts`) -/

/-- `product(id serial PRIMARY KEY, product text NOT NULL)`. -/
def productT : Table :=
  { name := "product",
    columns := [⟨"id", "Int", false, true⟩, ⟨"product", "String", false, false⟩],
    primaryKey := ["id"], foreignKeys := [] }

/-- `bill(id serial PRIMARY KEY, bill text NOT NULL)`. -/
def billT : Table :=
  { name := "bill",
    columns := [⟨"id", "Int", false, true⟩, ⟨"bill", "String", false, false⟩],
    primaryKey := ["id"], foreignKeys := [] }

/-- `bill_product(bill_id int REFERENCES bill(id), product_id int REFERENCES product(id))`. -/
def billProductT : Table :=
  { name := "bill_product",
    columns := [⟨"bill_id", "Int", true, false⟩, ⟨"product_id", "Int", true, false⟩],
    primaryKey := [],
    foreignKeys := [⟨"bill_id", "bill", "id"⟩, ⟨"product_id", "product", "id"⟩] }

/-- `bill_product` with its two foreign keys discovered in the opposite
order. -/
def billProductRevT : Table :=
  { billProductT with
    foreignKeys := [⟨"product_id", "product", "id"⟩, ⟨"bill_id", "bill", "id"⟩] }

/-- `bill_product` with an extra `some_other_column text NOT NULL`. -/
def billProductExtraT : Table :=
  { billProductT with
    columns := billProductT.columns ++ [⟨"some_other_column", "String", false, false⟩] }

/-- `bill(id, bill, product_id int REFERENCES product(id))` — nullable FK. -/
def billInlineT : Table :=
  { name := "bill",
    columns := [⟨"id", "Int", false, true⟩, ⟨"bill", "String", false, false⟩,
                ⟨"product_id", "Int", true, false⟩],
    primaryKey := ["id"],
    foreignKeys := [⟨"product_id", "product", "id"⟩] }

/-- The same table with `product_id int NOT NULL`. -/
def billInlineNNT : Table :=
  { billInlineT with
    columns := [⟨"id", "Int", false, true⟩, ⟨"bill", "String", false, false⟩,
                ⟨"product_id", "Int", false, false⟩] }

/-- A self-referencing table: `employee(id, manager_id int REFERENCES employee(id))`. -/
def employeeT : Table :=
  { name := "employee",
    columns := [⟨"id", "Int", false, true⟩, ⟨"name", "String", false, false⟩,
                ⟨"manager_id", "Int", true, false⟩],
    primaryKey := ["id"],
    foreignKeys := [⟨"manager_id", "employee", "id"⟩] }

/-! ### C1: junction-table classification -/

/-- C1. For every introspected schema, a table with exactly two foreign keys
and no other required (NOT NULL, non-default) columns is classified as a
junction table and not emitted as its own SDL type, and the referenced tables
each get a list-typed relation field to the other referenced table; whereas a
table with two foreign keys plus a required extra column is not a junction
table and is emitted as its own type with inline relation fields for both
foreign keys. -/
theorem junction_table_classification (ts : List Table) (t : Table)
    (ht : t ∈ ts)
    (hnodup : (ts.map (fun u => typeNameOf u.name)).Nodup) :
    (t.isJunction →
      (∀ et ∈ emitTypes (normalizeSchema ts), et.name ≠ typeNameOf t.name) ∧
      (∀ f1 f2, (t.foreignKeys = [f1, f2] ∨ t.foreignKeys = [f2, f1]) →
        ∀ u ∈ ts, ¬ u.isJunction → u.name = f1.targetTable →
          ∃ et ∈ emitTypes (normalizeSchema ts), et.name = typeNameOf u.name ∧
            ∃ f ∈ et.fields, f.name = pluralize f2.targetTable ∧
              f.typeName = typeNameOf f2.targetTable ∧ f.isList = true))
    ∧
    (∀ c ∈ t.columns, t.foreignKeys.length = 2 → c.isRequired = true →
      c.name ∉ t.fkColumnNames → c.name ∉ t.primaryKey →
      ¬ t.isJunction ∧
      ∃ et ∈ emitTypes (normalizeSchema ts), et.name = typeNameOf t.name ∧
        ∀ fk ∈ t.foreignKeys, ∃ f ∈ et.fields, f.name = inlineFieldName fk ∧
          f.typeName = typeNameOf fk.targetTable ∧ f.isList = false) := by
  constructor
  · intro hjunc
    constructor
    · exact junction_not_emitted ht hjunc hnodup
    · intro f1 f2 hfks u hu huj hun
      refine ⟨emitType (normalizeSchema ts) (canonTable u), mem_emitTypes hu huj, rfl,
        junctionFieldTo f2.targetTable, ?_, rfl, rfl, rfl⟩
      exact List.mem_append_right _ (junctionField_mem ht hjunc hfks hun.symm)
  · intro c hc _ hreq hnotfk hnotpk
    have hnj : ¬ t.isJunction := not_isJunction_of_required_extra hc hreq hnotfk hnotpk
    refine ⟨hnj, emitType (normalizeSchema ts) (canonTable t), mem_emitTypes ht hnj, rfl, ?_⟩
    intro fk hfk
    refine ⟨inlineFieldOf t fk, ?_, rfl, rfl, rfl⟩
    exact List.mem_append_left _ (List.mem_append_left _
      (List.mem_append_right _ (inlineField_mem hfk)))

/-- C1, instantiated on the §8 scenario: `bill_product` is elided, `Bill`
carries a `products: [Product!]!` field, and with a required extra column the
`BillProduct` type is emitted with both inline fields. -/
theorem junction_table_classification_witness :
    (∀ et ∈ emitTypes (normalizeSchema [productT, billT, billProductT]),
      et.name ≠ typeNameOf billProductT.name) ∧
    (∃ et ∈ emitTypes (normalizeSchema [productT, billT, billProductT]),
      et.name = typeNameOf billT.name ∧
      ∃ f ∈ et.fields, f.name = pluralize "product" ∧
        f.typeName = typeNameOf "product" ∧ f.isList = true) ∧
    (∃ et ∈ emitTypes (normalizeSchema [productT, billT, billProductExtraT]),
      et.name = typeNameOf billProductExtraT.name ∧
      ∀ fk ∈ billProductExtraT.foreignKeys,
        ∃ f ∈ et.fields, f.name = inlineFieldName fk ∧
          f.typeName = typeNameOf fk.targetTable ∧ f.isList = false) := by
  refine ⟨?_, ?_, ?_⟩
  · exact ((junction_table_classification [productT, billT, billProductT] billProductT
      (by decide) (by decide)).1 (by decide)).1
  · exact ((junction_table_classification [productT, billT, billProductT] billProductT
      (by decide) (by decide)).1 (by decide)).2
      ⟨"bill_id", "bill", "id"⟩ ⟨"product_id", "product", "id"⟩ (Or.inl rfl)
      billT (by decide) (by decide) rfl
  · exact ((junction_table_classification [productT, billT, billProductExtraT]
      billProductExtraT (by decide) (by decide)).2
      ⟨"some_other_column", "String", false, false⟩ (by decide) rfl (by decide)
      (by decide) (by decide)).2

/-! ### C2: deterministic introspection -/

/-- C2. Introspection is deterministic: two runs over the same schema content
— tables and per-table foreign keys possibly enumerated in different
database-internal orders — produce identical results (the same table count
and byte-identical SDL), provided table names are unique in the schema and no
column carries two foreign keys. -/
theorem introspect_deterministic (ts1 ts2 : List Table)
    (heq : SchemaEquivUpToOrder ts1 ts2)
    (hnames : (ts1.map Table.name).Nodup)
    (hfkdup : ∀ t ∈ ts1, (t.foreignKeys.map ForeignKey.sourceColumn).Nodup) :
    introspect ts1 = introspect ts2 := by
  obtain ⟨ts', hperm, hf2⟩ := heq
  have hlen : ts1.length = ts2.length := hperm.length_eq.trans hf2.length_eq
  have hnorm : normalizeSchema ts1 = normalizeSchema ts2 :=
    normalizeSchema_eq_of_equiv ⟨ts', hperm, hf2⟩ hnames hfkdup
  have hemp : ts1.isEmpty = ts2.isEmpty := by
    cases ts1 with
    | nil =>
      cases ts2 with
      | nil => rfl
      | cons h2 t2 => simp at hlen
    | cons h1 t1 =>
      cases ts2 with
      | nil => simp at hlen
      | cons h2 t2 => rfl
  unfold introspect
  rw [hemp, hlen, hnorm]

/-- C2, instantiated: permuting the table list and reversing the junction
table's foreign-key discovery order leaves the introspection result
unchanged. -/
theorem introspect_deterministic_witness :
    introspect [billT, productT, billProductRevT] =
    introspect [productT, billT, billProductT] := by
  apply introspect_deterministic
  · refine ⟨[productT, billT, billProductRevT], by decide, ?_⟩
    exact List.Forall₂.cons ⟨rfl, rfl, rfl, by decide⟩
      (List.Forall₂.cons ⟨rfl, rfl, rfl, by decide⟩
        (List.Forall₂.cons ⟨rfl, rfl, rfl, by decide⟩ List.Forall₂.nil))
  · decide
  · decide

/-! ### C3: inline relation nullability -/

/-- C3. For every inline foreign-key relation, the emitted inline field on
the owning type mirrors the nullability of the foreign-key column (required
exactly when the column is NOT NULL), is never a list, and the target type
carries a back-reference list field pointing at the owning type. -/
theorem inline_relation_nullability (ts : List Table) (t u : Table) (fk : ForeignKey)
    (ht : t ∈ ts) (hfk : fk ∈ t.foreignKeys) (htj : ¬ t.isJunction)
    (hu : u ∈ ts) (huj : ¬ u.isJunction) (hun : u.name = fk.targetTable) :
    (∃ et ∈ emitTypes (normalizeSchema ts), et.name = typeNameOf t.name ∧
      ∃ f ∈ et.fields, f.name = inlineFieldName fk ∧
        f.typeName = typeNameOf fk.targetTable ∧ f.isList = false ∧
        f.isRequired = !(t.fkColumnNullable fk))
    ∧
    (∃ et ∈ emitTypes (normalizeSchema ts), et.name = typeNameOf u.name ∧
      ∃ f ∈ et.fields, f.name = backRefFieldName t fk ∧
        f.typeName = typeNameOf t.name ∧ f.isList = true) := by
  constructor
  · refine ⟨emitType (normalizeSchema ts) (canonTable t), mem_emitTypes ht htj, rfl,
      inlineFieldOf t fk, ?_, rfl, rfl, rfl, rfl⟩
    exact List.mem_append_left _ (List.mem_append_left _
      (List.mem_append_right _ (inlineField_mem hfk)))
  · refine ⟨emitType (normalizeSchema ts) (canonTable u), mem_emitTypes hu huj, rfl,
      backRefFieldOf t fk, ?_, rfl, rfl, rfl⟩
    exact List.mem_append_left _ (List.mem_append_right _
      (backRefField_mem ht htj hfk hun.symm))

/-- C3, instantiated on the §8 inline scenarios: the nullable `product_id`
yields an optional `product` field on `Bill`, the NOT NULL variant yields a
required one, and `Product` carries the `bills` back-reference list in both
cases. -/
theorem inline_relation_nullability_witness :
    (∃ et ∈ emitTypes (normalizeSchema [productT, billInlineT]),
      et.name = typeNameOf billInlineT.name ∧
      ∃ f ∈ et.fields, f.name = inlineFieldName ⟨"product_id", "product", "id"⟩ ∧
        f.typeName = typeNameOf "product" ∧ f.isList = false ∧ f.isRequired = false)
    ∧
    (∃ et ∈ emitTypes (normalizeSchema [productT, billInlineNNT]),
      et.name = typeNameOf billInlineNNT.name ∧
      ∃ f ∈ et.fields, f.name = inlineFieldName ⟨"product_id", "product", "id"⟩ ∧
        f.typeName = typeNameOf "product" ∧ f.isList = false ∧ f.isRequired = true)
    ∧
    (∃ et ∈ emitTypes (normalizeSchema [productT, billInlineT]),
      et.name = typeNameOf productT.name ∧
      ∃ f ∈ et.fields, f.name = backRefFieldName billInlineT ⟨"product_id", "product", "id"⟩ ∧
        f.typeName = typeNameOf billInlineT.name ∧ f.isList = true) := by
  refine ⟨?_, ?_, ?_⟩
  · have h := (inline_relation_nullability [productT, billInlineT] billInlineT productT
      ⟨"product_id", "product", "id"⟩ (by decide) (by decide) (by decide)
      (by decide) (by decide) rfl).1
    obtain ⟨et, hmem, hname, f, hf, h1, h2, h3, h4⟩ := h
    exact ⟨et, hmem, hname, f, hf, h1, h2, h3, by rw [h4]; decide⟩
  · have h := (inline_relation_nullability [productT, billInlineNNT] billInlineNNT productT
      ⟨"product_id", "product", "id"⟩ (by decide) (by decide) (by decide)
      (by decide) (by decide) rfl).1
    obtain ⟨et, hmem, hname, f, hf, h1, h2, h3, h4⟩ := h
    exact ⟨et, hmem, hname, f, hf, h1, h2, h3, by rw [h4]; decide⟩
  · exact (inline_relation_nullability [productT, billInlineT] billInlineT productT
      ⟨"product_id", "product", "id"⟩ (by decide) (by decide) (by decide)
      (by decide) (by decide) rfl).2

/-! ### C4: every foreign key is represented, on both ends -/

/-- C4. For every foreign key: if its owning table is emitted, the owning
type carries a non-list relation field typed at the target and the target
type carries a list back-reference typed at the owner; if the owning table is
an elided junction table, each referenced table's type carries a list field
typed at the other referenced table.  No foreign key maps to zero emitted
fields, and each relation is represented on both ends. -/
theorem fk_coverage (ts : List Table) (t : Table) (fk : ForeignKey)
    (ht : t ∈ ts) (hfk : fk ∈ t.foreignKeys) :
    (¬ t.isJunction → ∀ u ∈ ts, ¬ u.isJunction → u.name = fk.targetTable →
      (∃ et ∈ emitTypes (normalizeSchema ts), et.name = typeNameOf t.name ∧
        ∃ f ∈ et.fields, f.typeName = typeNameOf fk.targetTable ∧ f.isList = false) ∧
      (∃ et ∈ emitTypes (normalizeSchema ts), et.name = typeNameOf fk.targetTable ∧
        ∃ f ∈ et.fields, f.typeName = typeNameOf t.name ∧ f.isList = true))
    ∧
    (t.isJunction → ∀ f1 f2, (t.foreignKeys = [f1, f2] ∨ t.foreignKeys = [f2, f1]) →
      ∀ u1 ∈ ts, ¬ u1.isJunction → u1.name = f1.targetTable →
      ∀ u2 ∈ ts, ¬ u2.isJunction → u2.name = f2.targetTable →
      (∃ et ∈ emitTypes (normalizeSchema ts), et.name = typeNameOf u1.name ∧
        ∃ f ∈ et.fields, f.typeName = typeNameOf f2.targetTable ∧ f.isList = true) ∧
      (∃ et ∈ emitTypes (normalizeSchema ts), et.name = typeNameOf u2.name ∧
        ∃ f ∈ et.fields, f.typeName = typeNameOf f1.targetTable ∧ f.isList = true)) := by
  constructor
  · intro htj u hu huj hun
    constructor
    · refine ⟨emitType (normalizeSchema ts) (canonTable t), mem_emitTypes ht htj, rfl,
        inlineFieldOf t fk, ?_, rfl, rfl⟩
      exact List.mem_append_left _ (List.mem_append_left _
        (List.mem_append_right _ (inlineField_mem hfk)))
    · refine ⟨emitType (normalizeSchema ts) (canonTable u), mem_emitTypes hu huj,
        congrArg typeNameOf hun, backRefFieldOf t fk, ?_, rfl, rfl⟩
      exact List.mem_append_left _ (List.mem_append_right _
        (backRefField_mem ht htj hfk hun.symm))
  · intro hjunc f1 f2 hfks u1 hu1 huj1 hun1 u2 hu2 huj2 hun2
    constructor
    · refine ⟨emitType (normalizeSchema ts) (canonTable u1), mem_emitTypes hu1 huj1, rfl,
        junctionFieldTo f2.targetTable, ?_, rfl, rfl⟩
      exact List.mem_append_right _ (junctionField_mem ht hjunc hfks hun1.symm)
    · refine ⟨emitType (normalizeSchema ts) (canonTable u2), mem_emitTypes hu2 huj2, rfl,
        junctionFieldTo f1.targetTable, ?_, rfl, rfl⟩
      exact List.mem_append_right _ (junctionField_mem ht hjunc hfks.symm hun2.symm)

/-- C4, instantiated on the §8 scenarios: the inline `product_id` key is
represented on both `Bill` and `Product`, and the junction table's keys are
represented as list fields on both `Bill` and `Product`. -/
theorem fk_coverage_witness :
    ((∃ et ∈ emitTypes (normalizeSchema [productT, billInlineT]),
        et.name = typeNameOf billInlineT.name ∧
        ∃ f ∈ et.fields, f.typeName = typeNameOf "product" ∧ f.isList = false) ∧
      (∃ et ∈ emitTypes (normalizeSchema [productT, billInlineT]),
        et.name = typeNameOf "product" ∧
        ∃ f ∈ et.fields, f.typeName = typeNameOf billInlineT.name ∧ f.isList = true))
    ∧
    ((∃ et ∈ emitTypes (normalizeSchema [productT, billT, billProductT]),
        et.name = typeNameOf billT.name ∧
        ∃ f ∈ et.fields, f.typeName = typeNameOf "product" ∧ f.isList = true) ∧
      (∃ et ∈ emitTypes (normalizeSchema [productT, billT, billProductT]),
        et.name = typeNameOf productT.name ∧
        ∃ f ∈ et.fields, f.typeName = typeNameOf "bill" ∧ f.isList = true)) := by
  constructor
  · exact (fk_coverage [productT, billInlineT] billInlineT ⟨"product_id", "product", "id"⟩
      (by decide) (by decide)).1 (by decide) productT (by decide) (by decide) rfl
  · exact (fk_coverage [productT, billT, billProductT] billProductT
      ⟨"bill_id", "bill", "id"⟩ (by decide) (by decide)).2 (by decide)
      ⟨"bill_id", "bill", "id"⟩ ⟨"product_id", "product", "id"⟩ (Or.inl rfl)
      billT (by decide) (by decide) rfl productT (by decide) (by decide) rfl

/-! ### C5: shape of a successful introspection result -/

/-- C5. On success (at least one discovered table) introspect returns exactly
the pair of the rendered SDL text and the count of the discovered tables. -/
theorem introspect_success_pair (ts : List Table) (h : ts ≠ []) :
    introspect ts = Except.ok
      { numTables := ts.length, sdl := renderSDL (emitTypes (normalizeSchema ts)) } := by
  unfold introspect
  rw [if_neg (fun hc => h (List.isEmpty_iff.mp hc))]

/-- C5, instantiated: the three-table scenario returns the pair of the SDL
string and the table count 3. -/
theorem introspect_success_pair_witness :
    introspect [productT, billT, billProductT] = Except.ok
      { numTables := 3,
        sdl := renderSDL (emitTypes (normalizeSchema [productT, billT, billProductT])) } :=
  introspect_success_pair [productT, billT, billProductT] (by decide)

/-! ### C6: empty schemas fail explicitly -/

/-- C6. Introspecting zero tables yields an explicit error — never a
successful result with blank SDL — while any non-empty schema yields a
successful result, so the empty case is distinguishable. -/
theorem introspect_empty_error (ts : List Table) :
    (ts = [] → introspect ts = Except.error "no tables found in the target schema") ∧
    (ts ≠ [] → ∃ r, introspect ts = Except.ok r) := by
  constructor
  · intro h
    subst h
    rfl
  · intro h
    unfold introspect
    rw [if_neg (fun hc => h (List.isEmpty_iff.mp hc))]
    exact ⟨_, rfl⟩

/-- C6, instantiated: the empty schema errors and a one-table schema
succeeds. -/
theorem introspect_empty_error_witness :
    introspect [] = Except.error "no tables found in the target schema" ∧
    ∃ r, introspect [productT] = Except.ok r :=
  ⟨(introspect_empty_error []).1 rfl, (introspect_empty_error [productT]).2 (by decide)⟩

/-! ### C7: self-references yield two distinct fields -/

/-- C7. A table with a self-referencing foreign key gets, on its single
emitted type, two relation fields for that key — the inline end and the
back-reference list end — with distinct names. -/
theorem self_reference_two_fields (ts : List Table) (t : Table) (fk : ForeignKey)
    (ht : t ∈ ts) (hfk : fk ∈ t.foreignKeys) (hself : fk.targetTable = t.name)
    (htj : ¬ t.isJunction) :
    ∃ et ∈ emitTypes (normalizeSchema ts), et.name = typeNameOf t.name ∧
      ∃ f1 ∈ et.fields, ∃ f2 ∈ et.fields, f1.name ≠ f2.name ∧
        f1.name = inlineFieldName fk ∧ f1.typeName = typeNameOf t.name ∧
        f1.isList = false ∧
        f2.name = backRefFieldName t fk ∧ f2.typeName = typeNameOf t.name ∧
        f2.isList = true := by
  refine ⟨emitType (normalizeSchema ts) (canonTable t), mem_emitTypes ht htj, rfl,
    inlineFieldOf t fk, ?_, backRefFieldOf t fk, ?_, ?_, rfl, ?_, rfl, rfl, rfl, rfl⟩
  · exact List.mem_append_left _ (List.mem_append_left _
      (List.mem_append_right _ (inlineField_mem hfk)))
  · exact List.mem_append_left _ (List.mem_append_right _
      (backRefField_mem ht htj hfk hself))
  · exact fun h => backRefFieldName_ne_inline hself h.symm
  · exact congrArg typeNameOf hself

/-- C7, instantiated: the self-referencing `employee` table gets a `manager`
inline field and an `employees` back-reference list field, distinctly
named. -/
theorem self_reference_two_fields_witness :
    ∃ et ∈ emitTypes (normalizeSchema [employeeT]), et.name = typeNameOf employeeT.name ∧
      ∃ f1 ∈ et.fields, ∃ f2 ∈ et.fields, f1.name ≠ f2.name ∧
        f1.name = inlineFieldName ⟨"manager_id", "employee", "id"⟩ ∧
        f1.typeName = typeNameOf employeeT.name ∧ f1.isList = false ∧
        f2.name = backRefFieldName employeeT ⟨"manager_id", "employee", "id"⟩ ∧
        f2.typeName = typeNameOf employeeT.name ∧ f2.isList = true :=
  self_reference_two_fields [employeeT] employeeT ⟨"manager_id", "employee", "id"⟩
    (by decide) (by decide) rfl (by decide)

/-! ### C8: concatName -/

/-- C8 counterexample. The claim says a shared cluster with a non-null
workspace always yields `<workspace>~<name>`; but `workspace ? ... : ''` is a
JavaScript truthiness test, so the non-null empty-string workspace yields the
bare name, not `"" ++ "~" ++ name`. -/
theorem concatName_empty_workspace_cex :
    concatName { shared := true } "svc" (some "") = "svc" ∧
    concatName { shared := true } "svc" (some "") ≠ "" ++ "~" ++ "svc" := by
  constructor
  · rfl
  · intro h
    have he : ("" : String).isEmpty = true := rfl
    have hd := congrArg String.data h
    simp [concatName, strOrNullTruthy, he] at hd

/-- C8 (amended). `concatName` is the identity on the name for non-shared
clusters; for a shared cluster it prefixes `<workspace>~` when the workspace
is non-null and non-empty, and returns the bare name when the workspace is
null or the empty string. -/
theorem concatName_spec (c : Cluster) (n : String) (w : Option String) :
    (c.shared = false → concatName c n w = n) ∧
    (c.shared = true → ∀ s, w = some s → s ≠ "" → concatName c n w = s ++ "~" ++ n) ∧
    (c.shared = true → (w = none ∨ w = some "") → concatName c n w = n) := by
  refine ⟨?_, ?_, ?_⟩
  · intro h
    simp [concatName, h]
  · rintro h s rfl hs
    have hemp : s.isEmpty = false := by
      cases he : s.isEmpty
      · rfl
      · exact absurd ((String.isEmpty_iff s).mp he) hs
    simp [concatName, h, strOrNullTruthy, hemp]
  · have he : ("" : String).isEmpty = true := rfl
    have hea : ∀ m : String, "" ++ m = m := fun m => String.ext (by simp [String.data_append])
    rintro h (rfl | rfl) <;> simp [concatName, h, strOrNullTruthy, he, hea]

/-- C8 witness: the three amended cases at concrete inputs. -/
theorem concatName_spec_witness :
    concatName { shared := false } "svc" (some "ws") = "svc" ∧
    concatName { shared := true } "svc" (some "ws") = "ws" ++ "~" ++ "svc" ∧
    concatName { shared := true } "svc" none = "svc" :=
  ⟨(concatName_spec { shared := false } "svc" (some "ws")).1 rfl,
   (concatName_spec { shared := true } "svc" (some "ws")).2.1 rfl "ws" rfl (by decide),
   (concatName_spec { shared := true } "svc" none).2.2 rfl (Or.inl rfl)⟩

/-! ### C9: getToken -/

/-- C9. `getToken` returns undefined exactly when `secrets` is null; when one
or more secrets are loaded it signs with only the first secret (the payload
of the `jwt.sign` call is independent of the remaining secrets); and loaded
secret lists are never empty (a `split(',')` result has at least one
element). -/
theorem getToken_first_secret (secrets : Option (List String)) (sn st : String) :
    (getToken secrets sn st = none ↔ secrets = none) ∧
    (∀ s rest, secrets = some (s :: rest) →
      getToken secrets sn st =
        some { service := sn ++ "@" ++ st, roles := ["admin"],
               secret := some s, expiresIn := "7d" }) ∧
    (∀ sf l, parseSecrets sf = some l → l ≠ []) := by
  refine ⟨?_, ?_, fun sf l h => parseSecrets_ne_nil h⟩
  · cases secrets <;> simp [getToken]
  · rintro s rest rfl
    rfl

/-- C9 witness: with two secrets loaded the sign call uses only the first
one; with none loaded the result is undefined. -/
theorem getToken_first_secret_witness :
    getToken (some ["s1", "s2"]) "svc" "dev" =
      some { service := "svc" ++ "@" ++ "dev", roles := ["admin"],
             secret := some "s1", expiresIn := "7d" } ∧
    getToken none "svc" "dev" = none :=
  ⟨(getToken_first_secret (some ["s1", "s2"]) "svc" "dev").2.1 "s1" ["s2"] rfl,
   (getToken_first_secret none "svc" "dev").1.mpr rfl⟩

/-! ### C10: getHooks -/

/-- C10 counterexample. The claim says a declared single-string hook yields a
one-element array; but `this.definition.hooks[hookType]` is a JavaScript
truthiness test, so the declared empty-string hook is skipped and the empty
array is returned instead of `[""]`. -/
theorem getHooks_empty_string_cex :
    getHooks (some (fun _ => some (.str ""))) "post-deploy" = .ok [] ∧
    (Except.ok [""] : Except String (List String)) ≠ .ok [] := by
  constructor
  · rfl
  · intro h
    simp at h

/-- C10 (amended). `getHooks` returns the empty array when no hook of the
requested type is declared or the declared value is falsy (in particular the
empty string); a one-element array when the declared hook is a non-empty
string; the array itself when it is an array of strings; and it throws
exactly when the declared value is truthy and neither a string nor an
array. -/
theorem getHooks_spec (hooks : Option (String → Option HookValue)) (ht : String) :
    (hooks = none → getHooks hooks ht = .ok []) ∧
    (∀ g, hooks = some g →
      (g ht = none → getHooks hooks ht = .ok []) ∧
      (∀ v, g ht = some v → v.truthy = false → getHooks hooks ht = .ok []) ∧
      (∀ s, g ht = some (.str s) → s ≠ "" → getHooks hooks ht = .ok [s]) ∧
      (∀ xs, g ht = some (.arr xs) → getHooks hooks ht = .ok xs) ∧
      (∀ v, g ht = some v →
        ((∃ e, getHooks hooks ht = .error e) ↔
          (v.truthy = true ∧ (∀ s, v ≠ .str s) ∧ (∀ xs, v ≠ .arr xs))))) := by
  constructor
  · rintro rfl
    rfl
  · rintro g rfl
    refine ⟨?_, ?_, ?_, ?_, ?_⟩
    · intro h
      simp [getHooks, h]
    · intro v hv htr
      simp [getHooks, hv, htr]
    · intro s hv hs
      have hemp : s.isEmpty = false := by
        cases he : s.isEmpty
        · rfl
        · exact absurd ((String.isEmpty_iff s).mp he) hs
      simp [getHooks, hv, HookValue.truthy, hemp]
    · intro xs hv
      simp [getHooks, hv, HookValue.truthy]
    · intro v hv
      cases v with
      | str s =>
        constructor
        · rintro ⟨e, he⟩
          by_cases hemp : s.isEmpty = true <;>
            simp [getHooks, hv, HookValue.truthy, hemp] at he
        · rintro ⟨-, hns, -⟩
          exact absurd rfl (hns s)
      | arr xs =>
        constructor
        · rintro ⟨e, he⟩
          simp [getHooks, hv, HookValue.truthy] at he
        · rintro ⟨-, -, hna⟩
          exact absurd rfl (hna xs)
      | other b =>
        cases b with
        | false =>
          constructor
          · rintro ⟨e, he⟩
            simp [getHooks, hv, HookValue.truthy] at he
          · rintro ⟨htr, -, -⟩
            simp [HookValue.truthy] at htr
        | true =>
          constructor
          · intro _
            exact ⟨rfl, fun s h => HookValue.noConfusion h,
              fun xs h => HookValue.noConfusion h⟩
          · intro _
            refine ⟨"Hook " ++ ht ++
              " provided in prisma.yml must be string or an array of strings.", ?_⟩
            simp [getHooks, hv, HookValue.truthy]

/-- C10 witness: the amended cases at concrete hook values — a non-empty
string, an array, a truthy non-string non-array value (which throws), and a
falsy one (which does not). -/
theorem getHooks_spec_witness :
    getHooks (some (fun _ => some (.str "echo done"))) "post-deploy" = .ok ["echo done"] ∧
    getHooks (some (fun _ => some (.arr ["a", "b"]))) "post-deploy" = .ok ["a", "b"] ∧
    (∃ e, getHooks (some (fun _ => some (.other true))) "post-deploy" = .error e) ∧
    getHooks (some (fun _ => some (.other false))) "post-deploy" = .ok [] ∧
    getHooks none "post-deploy" = .ok [] := by
  refine ⟨?_, ?_, ?_, ?_, ?_⟩
  · exact ((getHooks_spec (some (fun _ => some (.str "echo done"))) "post-deploy").2
      _ rfl).2.2.1 "echo done" rfl (by decide)
  · exact ((getHooks_spec (some (fun _ => some (.arr ["a", "b"]))) "post-deploy").2
      _ rfl).2.2.2.1 ["a", "b"] rfl
  · exact (((getHooks_spec (some (fun _ => some (.other true))) "post-deploy").2
      _ rfl).2.2.2.2 (.other true) rfl).mpr
      ⟨rfl, fun s h => HookValue.noConfusion h, fun xs h => HookValue.noConfusion h⟩
  · exact ((getHooks_spec (some (fun _ => some (.other false))) "post-deploy").2
      _ rfl).2.1 (.other false) rfl rfl
  · exact (getHooks_spec none "post-deploy").1 rfl
